import Mathlib

/-
Verification development for the bev-rs Bézier-curve library.

The scalar field F of the library (a caller-chosen floating type) is
embedded as ℚ, the exact-arithmetic reading of the spec.  Machine
integers (u64 in `factorial`/`combination`, the coefficient vector) are
embedded as ℕ with explicit overflow checks / `% 2^64` where the source
performs checked or unchecked u64 arithmetic.  Rust panics are embedded
as `Option`/`Except` failure values.
-/

namespace Bev

/-- An affine point in ℚ^d.  The library's `Point` trait objects
(`Point2d`, … — the trait itself lives outside `src/`) are value types
with componentwise arithmetic; the claims only use the operations that
`nbez.rs` invokes, modelled componentwise below. -/
structure Pt (d : Nat) where
  coords : Fin d → ℚ

/-- A displacement vector in ℚ^d, nominally distinct from `Pt`
(spec §3: Point vs Vector). -/
structure Vec (d : Nat) where
  coords : Fin d → ℚ

/-- `P::zero()` of the Point trait. -/
def Pt.zero (d : Nat) : Pt d := ⟨fun _ => 0⟩

instance instAddPt {d : Nat} : Add (Pt d) :=
  ⟨fun a b => ⟨fun i => a.coords i + b.coords i⟩⟩

instance instHAddPtVec {d : Nat} : HAdd (Pt d) (Vec d) (Pt d) :=
  ⟨fun a v => ⟨fun i => a.coords i + v.coords i⟩⟩

instance instHSubPtPt {d : Nat} : HSub (Pt d) (Pt d) (Vec d) :=
  ⟨fun a b => ⟨fun i => a.coords i - b.coords i⟩⟩

instance instHMulPtRat {d : Nat} : HMul (Pt d) ℚ (Pt d) :=
  ⟨fun p a => ⟨fun i => p.coords i * a⟩⟩

instance instHMulVecRat {d : Nat} : HMul (Vec d) ℚ (Vec d) :=
  ⟨fun v a => ⟨fun i => v.coords i * a⟩⟩

/-- The `.into()` conversion `P -> P::Vector` used at the end of
`slope_unbounded`. -/
def Pt.toVec {d : Nat} (p : Pt d) : Vec d := ⟨p.coords⟩

/-- u64::MAX. -/
def u64Max : Nat := 18446744073709551615

/-- `u64::checked_mul`: `none` models arithmetic overflow. -/
def checkedMul (a b : Nat) : Option Nat :=
  if a * b ≤ u64Max then some (a * b) else none

/-- The loop of `factorial` in nbez.rs: `while n > 0 { accumulator =
accumulator.checked_mul(n).expect(..); n -= 1 }`.  The `expect` panic on
overflow is modelled as `none`. -/
def factorialAux : Nat → Nat → Option Nat
  | acc, 0 => some acc
  | acc, n + 1 =>
    match checkedMul acc (n + 1) with
    | some acc2 => factorialAux acc2 n
    | none => none

/-- `factorial(n)` of nbez.rs (over u64, with checked multiplication). -/
def factorial (n : Nat) : Option Nat := factorialAux 1 n

/-- `combination(n, k) = factorial(n) / (factorial(k) * factorial(n - k))`
of nbez.rs; a panic in any factorial propagates. -/
def combination (n k : Nat) : Option Nat :=
  match factorial n, factorial k, factorial (n - k) with
  | some fn, some fk, some fnk => some (fn / (fk * fnk))
  | _, _, _ => none

/-- The `RangeSlice` struct of nbez.rs. -/
structure RangeSlice where
  start : Nat
  stop : Nat
deriving DecidableEq

/-- `RangeSlice::len`. -/
def RangeSlice.len (r : RangeSlice) : Nat := r.stop - r.start

/-- The interior-mutability cells of an `NBez`: the shared factor vector
and the two `RangeSlice` cells delimiting `factors` and `dfactors`. -/
structure FactorCache where
  vec : List Nat
  factors : RangeSlice
  dfactors : RangeSlice
deriving DecidableEq

/-- The cache as `from_container` initializes it: empty vector, both
ranges `RangeSlice::new(0, 0)`. -/
def initCache : FactorCache := ⟨[], ⟨0, 0⟩, ⟨0, 0⟩⟩

/-- The source's `vec.push(..)` loops: collect `f k` for each `k`,
propagating a panic (`none`) from any element. -/
def mapMO {α β : Type} (f : α → Option β) : List α → Option (List β)
  | [] => some []
  | a :: l =>
    match f a, mapMO f l with
    | some b, some bs => some (b :: bs)
    | _, _ => none

/-- The first push loop of `update_factors`: `combination(order, k)` for
`k in 0..order+1`. -/
def factorsList (order : Nat) : Option (List Nat) :=
  mapMO (fun k => combination order k) (List.range (order + 1))

/-- The second push loop of `update_factors`: `combination(order - 1, k)`
for `k in 0..order` (empty when `order = 0`). -/
def dfactorsList (order : Nat) : Option (List Nat) :=
  mapMO (fun k => combination (order - 1) k) (List.range order)

/-- `update_factors` of nbez.rs.  Guard: recompute only when
`factors.get().len() != order + 1`; otherwise a no-op.  The capacity
reservation is a performance detail with no observable content.  After a
recompute, `factors = 0..order+1` and `dfactors = order+1..vec.len()`. -/
def update_factors (order : Nat) (c : FactorCache) : Option FactorCache :=
  if c.factors.len ≠ order + 1 then
    match factorsList order, dfactorsList order with
    | some fl, some dl =>
      some ⟨fl ++ dl, ⟨0, order + 1⟩, ⟨order + 1, (fl ++ dl).length⟩⟩
    | _, _ => none
  else some c

/-- Rust slice indexing `v[r.start..r.end]`: panics (`none`) when the
range is out of bounds. -/
def sliceOpt (v : List Nat) (r : RangeSlice) : Option (List Nat) :=
  if r.start ≤ r.stop ∧ r.stop ≤ v.length then
    some ((v.drop r.start).take (r.stop - r.start))
  else none

/-- The `NBez` curve: its control points and its coefficient cache.  The
source mutates the cache cells in place during evaluation; here each
evaluation returns the post-call cache state alongside its value. -/
structure NBez (d : Nat) where
  points : List (Pt d)
  cache : FactorCache

/-- `NBez::order` = `points.len() - 1` (truncated ℕ subtraction; on an
empty container the source's usize subtraction is an arithmetic-overflow
panic, and every evaluator below refuses the empty container first). -/
def NBez.order {d : Nat} (nb : NBez d) : Nat := nb.points.length - 1

/-- `NBez::from_container`: panics (`none`) when `points.len() >= 22`
("Cannot create Bézier polynomials with an order >= 21"); otherwise
wraps the container with empty cache cells. -/
def NBez.from_container {d : Nat} (ps : List (Pt d)) : Option (NBez d) :=
  if 22 ≤ ps.length then none else some ⟨ps, initCache⟩

/-- The accumulation loop of `NBez::interp_unbounded`: over each point,
`acc = acc + point * t^factor * t1^(order - factor) * factors[factor]`,
with `factor` counting up from 0.  `factors[factor]` is read with a
default here; the caller establishes the in-bounds side condition. -/
def interpLoop {d : Nat} (factors : List Nat) (order : Nat) (t t1 : ℚ) :
    List (Pt d) → Nat → Pt d → Pt d
  | [], _, acc => acc
  | p :: rest, factor, acc =>
    interpLoop factors order t t1 rest (factor + 1)
      (acc + p * t ^ factor * t1 ^ (order - factor)
        * ((factors.getD factor 0 : Nat) : ℚ))

/-- `NBez::interp_unbounded`: update the cache for the current order,
slice out `factors`, then run the Bernstein accumulation loop with
`order = factors.len() - 1`.  Source panics (overflowing factorial,
out-of-bounds slice or element access, empty container) are `none`. -/
def NBez.interp_unbounded {d : Nat} (nb : NBez d) (t : ℚ) :
    Option (Pt d × FactorCache) :=
  if nb.points.isEmpty then none
  else
    match update_factors nb.order nb.cache with
    | none => none
    | some c =>
      match sliceOpt c.vec c.factors with
      | none => none
      | some fs =>
        if nb.points.length ≤ fs.length then
          some (interpLoop fs (fs.length - 1) t (1 - t) nb.points 0 (Pt.zero d), c)
        else none

/-- The accumulation loop of `NBez::slope_unbounded`: over the pairs of
consecutive points, `acc = acc + (point - point_last) * t^factor *
t1^(order - factor) * (dfactors[factor] * (order + 1))`, the coefficient
product being unchecked u64 arithmetic (`% 2^64`). -/
def slopeLoop {d : Nat} (dfactors : List Nat) (order : Nat) (t t1 : ℚ) :
    Pt d → List (Pt d) → Nat → Pt d → Pt d
  | _, [], _, acc => acc
  | pLast, p :: rest, factor, acc =>
    slopeLoop dfactors order t t1 p rest (factor + 1)
      (acc + (p - pLast) * t ^ factor * t1 ^ (order - factor)
        * (((dfactors.getD factor 0 * (order + 1)) % (u64Max + 1) : Nat) : ℚ))

/-- `NBez::slope_unbounded`: update the cache, slice out `dfactors`,
set `order = dfactors.len() - 1` (a usize-underflow panic when the
dfactors slice is empty), seed `point_last = points[0]` (a panic on an
empty container) and run the derivative loop; the accumulated point is
converted `.into()` a vector. -/
def NBez.slope_unbounded {d : Nat} (nb : NBez d) (t : ℚ) :
    Option (Vec d × FactorCache) :=
  match nb.points with
  | [] => none
  | p0 :: rest =>
    match update_factors nb.order nb.cache with
    | none => none
    | some c =>
      match sliceOpt c.vec c.dfactors with
      | none => none
      | some dfs =>
        if dfs.length = 0 then none
        else if rest.length ≤ dfs.length then
          some ((slopeLoop dfs (dfs.length - 1) t (1 - t) p0 rest 0 (Pt.zero d)).toVec, c)
        else none

/-- Modelled from the spec: `check_t_bounds` (referenced by macros.rs as
`$crate::check_t_bounds` but defined outside `src/`) — a bounds-checked
query "requires t ∈ [0,1]; fails with a domain error otherwise". -/
def check_t_bounds (t : ℚ) : Bool :=
  decide ((0 : ℚ) ≤ t) && decide (t ≤ (1 : ℚ))

/-- Modelled from the spec: the bounds-checked `interp(t)` of the
`BezCurve` trait (the trait lives outside `src/`) — "requires t ∈ [0,1];
fails with a domain error otherwise. Delegates to `interp_unbounded`".
The domain error is `none`, raised before the cache is touched. -/
def NBez.interp {d : Nat} (nb : NBez d) (t : ℚ) : Option (Pt d × FactorCache) :=
  if check_t_bounds t then nb.interp_unbounded t else none

/-- Modelled from the spec: the bounds-checked `slope(t)` — same
contract as `interp`, delegating to `slope_unbounded`. -/
def NBez.slope {d : Nat} (nb : NBez d) (t : ℚ) : Option (Vec d × FactorCache) :=
  if check_t_bounds t then nb.slope_unbounded t else none

/-- Modelled from the spec: `lerp` (used by `NBez::elevate` but defined
outside `src/`) — linear interpolation between two points,
`lerp(a, b, t) = a + (b - a) * t`, so `lerp(P_i, P_{i-1}, i/(n+1))` is
the standard degree-elevation combination of §4.2. -/
def lerp {d : Nat} (a b : Pt d) (t : ℚ) : Pt d := a + (b - a) * t

/-- The elevation loop of `NBez::elevate`: over
`points.iter().enumerate().skip(1)`, push
`lerp(p, prev_p, i / order_f)` threading `prev_p`. -/
def elevLoop {d : Nat} (ordf : ℚ) : Pt d → Nat → List (Pt d) → List (Pt d)
  | _, _, [] => []
  | prev, i, p :: rest =>
    lerp p prev ((i : ℚ) / ordf) :: elevLoop ordf p (i + 1) rest

/-- The elevated point list built by `NBez::elevate`: `points[0]`, the
loop's lerps for `i = 1..order`, then `points[order]` (empty input would
panic at `points[0]`). -/
def elevPoints {d : Nat} (ps : List (Pt d)) : List (Pt d) :=
  match ps with
  | [] => []
  | p0 :: rest =>
    (p0 :: elevLoop (ps.length : ℚ) p0 1 rest)
      ++ [ps.getD (ps.length - 1) (Pt.zero d)]

/-- `NBez::elevate`: build the elevated point list (with
`order = self.order() + 1 = points.len()` as the lerp denominator) and
hand it to `NBez::from_container`, whose order-limit panic propagates. -/
def NBez.elevate {d : Nat} (nb : NBez d) : Option (NBez d) :=
  match nb.points with
  | [] => none
  | _ :: _ => NBez.from_container (elevPoints nb.points)

/-- `BezNode` of lib.rs: an (x, y) pair tagged as an on-curve anchor
(`Point` variant) or an off-curve control (`Control` variant). -/
inductive BezNode where
  | point (x y : ℚ) : BezNode
  | control (x y : ℚ) : BezNode
deriving DecidableEq

instance : Inhabited BezNode := ⟨.point 0 0⟩

/-- `BezNode::is_point`. -/
def BezNode.is_point : BezNode → Bool
  | .point _ _ => true
  | .control _ _ => false

/-- `BezNode::is_control`. -/
def BezNode.is_control : BezNode → Bool
  | .point _ _ => false
  | .control _ _ => true

/-- `BevError` of lib.rs. -/
inductive BevError where
  | BadNodePattern
  | InvalidLength
deriving DecidableEq

/-- `BezCubeChain`: the validated wrapper around a flat node sequence. -/
structure BezCubeChain where
  container : List BezNode
deriving DecidableEq

/-- The per-segment check of `BezCubeChain::from_container` on the slice
`cslice[i*3..(i+1)*3+1]`: tags must be point, control, control, point.
Indices are in bounds whenever `len % 3 = 1` and `i < len / 3`. -/
def segOk (c : List BezNode) (i : Nat) : Bool :=
  (c.getD (3 * i) default).is_point && (c.getD (3 * i + 1) default).is_control
    && (c.getD (3 * i + 2) default).is_control && (c.getD (3 * i + 3) default).is_point

/-- `BezCubeChain::from_container` of lib.rs: reject `len % 3 != 1` as
`InvalidLength`, then check every segment `i in 0..len/3`, rejecting the
first bad one as `BadNodePattern`; on success wrap the container. -/
def BezCubeChain.from_container (c : List BezNode) : Except BevError BezCubeChain :=
  if c.length % 3 ≠ 1 then .error .InvalidLength
  else if (List.range (c.length / 3)).all (segOk c) then .ok ⟨c⟩
  else .error .BadNodePattern

/-- `factorial` of build.rs (plain recursion over usize; only ever run
on n ≤ 6 where usize cannot overflow). -/
def bfactorial : Nat → Nat
  | 0 => 1
  | n + 1 => (n + 1) * bfactorial n

/-- `combination` of build.rs, the generator of the fixed-shape
coefficient literals. -/
def bcombination (n k : Nat) : Nat := bfactorial n / (bfactorial k * bfactorial (n - k))

/-- `interp_unbounded` of the generated single-axis type `BezPoly{n}o`
(macros.rs `n_bezier`): the unrolled sum over the `n+1` fields, field k
weighted `t1^(n-k) * t^k * field * C(n,k)`, the weight literal having
been produced by build.rs's `combination`. -/
def fixedInterpUnbounded (n : Nat) (f : Fin (n + 1) → ℚ) (t : ℚ) : ℚ :=
  ∑ k : Fin (n + 1),
    (1 - t) ^ (n - k.val) * t ^ k.val * f k * ((bcombination n k.val : Nat) : ℚ)

/-- `slope_unbounded` of `BezPoly{n}o`: the unrolled derivative sum over
the `n` consecutive field differences, pair k weighted
`t1^(n-1-k) * t^k * (field_{k+1} - field_k) * (C(n-1,k) * n)`. -/
def fixedSlopeUnbounded (n : Nat) (f : Fin (n + 1) → ℚ) (t : ℚ) : ℚ :=
  ∑ k : Fin n,
    (1 - t) ^ (n - 1 - k.val) * t ^ k.val * (f k.succ - f k.castSucc)
      * ((bcombination (n - 1) k.val * n : Nat) : ℚ)

/-- The bounds-checked `interp` of `BezPoly{n}o`: `check_t_bounds` then
delegate. -/
def fixedInterp (n : Nat) (f : Fin (n + 1) → ℚ) (t : ℚ) : Option ℚ :=
  if check_t_bounds t then some (fixedInterpUnbounded n f t) else none

/-- The bounds-checked `slope` of `BezPoly{n}o`. -/
def fixedSlope (n : Nat) (f : Fin (n + 1) → ℚ) (t : ℚ) : Option ℚ :=
  if check_t_bounds t then some (fixedSlopeUnbounded n f t) else none

/- No embedding is given for the composite types `Bez{n}o{d}d`: the
`bez_composite` invocations that build.rs emits cannot expand against
the `bez_composite` pattern of macros.rs — build.rs writes the trailing
axis-map lines as `start: x, y;` (a colon, grouped by control point)
where the pattern requires `$dim = $dfield, …;` (an equals sign, grouped
by axis), and the head block is grouped by axis where the macro body
needs it grouped by control point — so no composite type exists in the
program.  Only the single-axis `BezPoly{n}o` types are generated. -/

/- Specification-side definitions, written from the claims' formulas. -/

/-- The Bernstein-basis sum of the claims:
`Σ_{k=0}^{n} C(n,k) · t^k · (1-t)^{n-k} · P_k` with the exact binomial
`Nat.choose`. -/
def bernPt {d : Nat} (n : Nat) (ps : List (Pt d)) (t : ℚ) : Pt d :=
  ⟨fun ax => ∑ k ∈ Finset.range (n + 1),
    ((n.choose k : Nat) : ℚ) * t ^ k * (1 - t) ^ (n - k)
      * (ps.getD k (Pt.zero d)).coords ax⟩

/-- The derivative sum of the claims:
`Σ_{k=0}^{n-1} C(n-1,k) · t^k · (1-t)^{n-1-k} · n·(P_{k+1} - P_k)`,
a Vector. -/
def slopeVecSpec {d : Nat} (n : Nat) (ps : List (Pt d)) (t : ℚ) : Vec d :=
  ⟨fun ax => ∑ k ∈ Finset.range n,
    (((n - 1).choose k : Nat) : ℚ) * t ^ k * (1 - t) ^ (n - 1 - k)
      * ((n : ℚ) * ((ps.getD (k + 1) (Pt.zero d)).coords ax
          - (ps.getD k (Pt.zero d)).coords ax))⟩

/-- The cache a recompute at `order = n` produces: `factors[k] = C(n,k)`
for `k ≤ n` followed by `dfactors[k] = C(n-1,k)` for `k < n`. -/
def cacheFor (n : Nat) : FactorCache :=
  ⟨(List.range (n + 1)).map (fun k => n.choose k)
      ++ (List.range n).map (fun k => (n - 1).choose k),
    ⟨0, n + 1⟩, ⟨n + 1, 2 * n + 1⟩⟩

/-- The cache states of a curve of order `n` reachable by any sequence
of evaluation calls: the unpopulated initial state, plus anything
`update_factors` (the only cache mutation, performed by
`interp_unbounded` and `slope_unbounded`) produces from a reachable
state.  `elevate` never touches the receiver's cache. -/
inductive Reachable (n : Nat) : FactorCache → Prop where
  | init : Reachable n initCache
  | step : ∀ {c c2 : FactorCache}, Reachable n c →
      update_factors n c = some c2 → Reachable n c2

/-- The claims' chain-segment condition: group `i` is tagged exactly
anchor, control, control, anchor. -/
def segSpec (c : List BezNode) (i : Nat) : Prop :=
  (c.getD (3 * i) default).is_point = true
    ∧ (c.getD (3 * i + 1) default).is_control = true
    ∧ (c.getD (3 * i + 2) default).is_control = true
    ∧ (c.getD (3 * i + 3) default).is_point = true

instance (c : List BezNode) (i : Nat) : Decidable (segSpec c i) := by
  unfold segSpec; infer_instance

/- Concrete fixtures for witnesses and counterexamples. -/

/-- A 2-d point literal. -/
def pt2 (a b : ℚ) : Pt 2 := ⟨![a, b]⟩

/-- A concrete two-point (order-1) curve's control points. -/
def wps1 : List (Pt 2) := [pt2 0 0, pt2 2 4]

/-- A concrete three-point (order-2) curve's control points. -/
def wps2 : List (Pt 2) := [pt2 0 0, pt2 1 3, pt2 4 0]

/-- The valid length-7 chain of the claims: anchor, control, control,
anchor, control, control, anchor. -/
def ex7good : List BezNode :=
  [.point 0 0, .control 1 0, .control 2 0, .point 3 0,
   .control 4 0, .control 5 0, .point 6 0]

/-- The length-6 chain of the claims (invalid length). -/
def ex6 : List BezNode :=
  [.point 0 0, .control 1 0, .control 2 0, .point 3 0, .control 4 0, .control 5 0]

/-- The length-7 chain of the claims whose 2nd element is an anchor. -/
def ex7bad : List BezNode :=
  [.point 0 0, .point 1 0, .control 2 0, .point 3 0,
   .control 4 0, .control 5 0, .point 6 0]

/- Coordinate lemmas for the point/vector operations. -/

@[simp] theorem Pt.add_coords {d : Nat} (a b : Pt d) (i : Fin d) :
    (a + b).coords i = a.coords i + b.coords i := rfl

@[simp] theorem Pt.addVec_coords {d : Nat} (a : Pt d) (v : Vec d) (i : Fin d) :
    (a + v).coords i = a.coords i + v.coords i := rfl

@[simp] theorem Pt.sub_coords {d : Nat} (a b : Pt d) (i : Fin d) :
    (a - b).coords i = a.coords i - b.coords i := rfl

@[simp] theorem Pt.mul_coords {d : Nat} (p : Pt d) (q : ℚ) (i : Fin d) :
    (p * q).coords i = p.coords i * q := rfl

@[simp] theorem Vec.smul_coords {d : Nat} (v : Vec d) (q : ℚ) (i : Fin d) :
    (v * q).coords i = v.coords i * q := rfl

@[simp] theorem Pt.zero_coords (d : Nat) (i : Fin d) : (Pt.zero d).coords i = 0 := rfl

@[simp] theorem Pt.toVec_coords {d : Nat} (p : Pt d) (i : Fin d) :
    p.toVec.coords i = p.coords i := rfl

@[simp] theorem lerp_coords {d : Nat} (a b : Pt d) (t : ℚ) (i : Fin d) :
    (lerp a b t).coords i = a.coords i + (b.coords i - a.coords i) * t := rfl

theorem Pt.ext_coords {d : Nat} {a b : Pt d} (h : ∀ i, a.coords i = b.coords i) :
    a = b := by
  cases a; cases b
  simp only [Pt.mk.injEq]
  funext i
  exact h i

theorem Vec.eq_of_coords {d : Nat} {a b : Vec d} (h : ∀ i, a.coords i = b.coords i) :
    a = b := by
  cases a; cases b
  simp only [Vec.mk.injEq]
  funext i
  exact h i

/- Exactness of the checked u64 combinatorics for orders up to 20, and
its guaranteed overflow from order 21 on. -/

theorem factorial_eq_of_le20 : ∀ n, n ≤ 20 → factorial n = some n.factorial := by
  decide

theorem factorialAux_eq_some :
    ∀ (n acc r : Nat), factorialAux acc n = some r → r = acc * n.factorial := by
  intro n
  induction n with
  | zero =>
    intro acc r h
    simp only [factorialAux] at h
    cases h
    simp [Nat.factorial]
  | succ m ih =>
    intro acc r h
    simp only [factorialAux, checkedMul] at h
    by_cases hb : acc * (m + 1) ≤ u64Max
    · rw [if_pos hb] at h
      have := ih (acc * (m + 1)) r h
      rw [this, Nat.factorial_succ]
      ring
    · rw [if_neg hb] at h
      cases h

theorem factorialAux_le :
    ∀ (n acc r : Nat), factorialAux acc (n + 1) = some r → r ≤ u64Max := by
  intro n
  induction n with
  | zero =>
    intro acc r h
    simp only [factorialAux, checkedMul] at h
    by_cases hb : acc * 1 ≤ u64Max
    · rw [if_pos hb] at h
      cases h
      exact hb
    · rw [if_neg hb] at h
      cases h
  | succ m ih =>
    intro acc r h
    rw [show factorialAux acc (m + 2) =
        match checkedMul acc (m + 2) with
        | some acc2 => factorialAux acc2 (m + 1)
        | none => none from rfl] at h
    unfold checkedMul at h
    by_cases hb : acc * (m + 2) ≤ u64Max
    · rw [if_pos hb] at h
      exact ih (acc * (m + 2)) r h
    · rw [if_neg hb] at h
      cases h

theorem factorial_none_of_ge21 (n : Nat) (h : 21 ≤ n) : factorial n = none := by
  cases hf : factorial n with
  | none => rfl
  | some r =>
    exfalso
    obtain ⟨m, rfl⟩ : ∃ m, n = m + 1 := ⟨n - 1, by omega⟩
    unfold factorial at hf
    have h1 := factorialAux_eq_some (m + 1) 1 r hf
    have h2 := factorialAux_le m 1 r hf
    have h3 : Nat.factorial 21 ≤ Nat.factorial (m + 1) := Nat.factorial_le (by omega)
    have h4 : u64Max < Nat.factorial 21 := by decide
    rw [one_mul] at h1
    omega

theorem combination_eq_choose (n k : Nat) (hn : n ≤ 20) (hk : k ≤ n) :
    combination n k = some (n.choose k) := by
  unfold combination
  rw [factorial_eq_of_le20 n hn, factorial_eq_of_le20 k (le_trans hk hn),
    factorial_eq_of_le20 (n - k) (by omega),
    Nat.choose_eq_factorial_div_factorial hk]

theorem combination_self_none (n : Nat) (h : 21 ≤ n) : combination n n = none := by
  unfold combination
  rw [factorial_none_of_ge21 n h]

theorem mapMO_eq_some_map {α β : Type} (f : α → Option β) (g : α → β) :
    ∀ l : List α, (∀ a ∈ l, f a = some (g a)) → mapMO f l = some (l.map g) := by
  intro l
  induction l with
  | nil => intro _; rfl
  | cons b l ih =>
    intro h
    have hb : f b = some (g b) := h b (List.mem_cons_self b l)
    have hl : mapMO f l = some (l.map g) :=
      ih fun a ha => h a (List.mem_cons_of_mem b ha)
    simp only [mapMO, hb, hl, List.map_cons]

theorem mapMO_eq_none {α β : Type} (f : α → Option β) (a : α) :
    ∀ l : List α, a ∈ l → f a = none → mapMO f l = none := by
  intro l
  induction l with
  | nil => intro h; cases h
  | cons b l ih =>
    intro hmem hfa
    rcases List.mem_cons.1 hmem with rfl | hl
    · simp only [mapMO, hfa]
    · rw [show mapMO f (b :: l) =
          match f b, mapMO f l with
          | some x, some xs => some (x :: xs)
          | _, _ => none from rfl, ih hl hfa]
      cases f b <;> rfl

theorem factorsList_eq (n : Nat) (hn : n ≤ 20) :
    factorsList n = some ((List.range (n + 1)).map (fun k => n.choose k)) := by
  unfold factorsList
  exact mapMO_eq_some_map _ _ _ fun a ha =>
    combination_eq_choose n a hn (by have := List.mem_range.1 ha; omega)

theorem dfactorsList_eq (n : Nat) (hn : n ≤ 20) :
    dfactorsList n = some ((List.range n).map (fun k => (n - 1).choose k)) := by
  unfold dfactorsList
  exact mapMO_eq_some_map _ _ _ fun a ha =>
    combination_eq_choose (n - 1) a (by omega)
      (by have := List.mem_range.1 ha; omega)

theorem factorsList_none (n : Nat) (h : 21 ≤ n) : factorsList n = none := by
  unfold factorsList
  exact mapMO_eq_none _ n _ (List.mem_range.2 (by omega)) (combination_self_none n h)

/- The three possible `update_factors` transitions. -/

theorem update_factors_init (n : Nat) (hn : n ≤ 20) :
    update_factors n initCache = some (cacheFor n) := by
  unfold update_factors initCache
  rw [if_pos (by simp [RangeSlice.len])]
  rw [factorsList_eq n hn, dfactorsList_eq n hn]
  have hlen : ((List.range (n + 1)).map (fun k => n.choose k)
      ++ (List.range n).map (fun k => (n - 1).choose k)).length = 2 * n + 1 := by
    simp only [List.length_append, List.length_map, List.length_range]
    omega
  show some (FactorCache.mk
      ((List.range (n + 1)).map (fun k => n.choose k)
        ++ (List.range n).map (fun k => (n - 1).choose k))
      ⟨0, n + 1⟩
      ⟨n + 1, ((List.range (n + 1)).map (fun k => n.choose k)
        ++ (List.range n).map (fun k => (n - 1).choose k)).length⟩)
    = some (cacheFor n)
  rw [hlen]
  rfl

theorem update_factors_none (n : Nat) (h : 21 ≤ n) :
    update_factors n initCache = none := by
  unfold update_factors initCache
  rw [if_pos (by simp [RangeSlice.len])]
  rw [factorsList_none n h]

theorem update_factors_cacheFor (n : Nat) :
    update_factors n (cacheFor n) = some (cacheFor n) := by
  unfold update_factors
  rw [if_neg]
  simp [cacheFor, RangeSlice.len]

theorem reachable_cases {n : Nat} {c : FactorCache} (h : Reachable n c) :
    c = initCache ∨ (n ≤ 20 ∧ c = cacheFor n) := by
  induction h with
  | init => exact Or.inl rfl
  | step hr hupd ih =>
    rcases ih with rfl | ⟨hn, rfl⟩
    · by_cases hn : n ≤ 20
      · rw [update_factors_init n hn] at hupd
        exact Or.inr ⟨hn, (Option.some.inj hupd).symm⟩
      · rw [update_factors_none n (by omega)] at hupd
        cases hupd
    · rw [update_factors_cacheFor n] at hupd
      exact Or.inr ⟨hn, (Option.some.inj hupd).symm⟩

theorem update_factors_of_reachable {n : Nat} {c : FactorCache}
    (h : Reachable n c) : update_factors n c = update_factors n initCache := by
  rcases reachable_cases h with rfl | ⟨hn, rfl⟩
  · rfl
  · rw [update_factors_cacheFor n, update_factors_init n hn]

theorem cacheFor_reachable (n : Nat) (hn : n ≤ 20) : Reachable n (cacheFor n) :=
  Reachable.step Reachable.init (update_factors_init n hn)

/- Slicing the canonical cache. -/

theorem sliceOpt_factors (n : Nat) :
    sliceOpt (cacheFor n).vec (cacheFor n).factors
      = some ((List.range (n + 1)).map (fun k => n.choose k)) := by
  unfold sliceOpt cacheFor
  rw [if_pos (by
    refine ⟨Nat.zero_le _, ?_⟩
    simp only [List.length_append, List.length_map, List.length_range]
    omega)]
  simp only [List.drop_zero, Nat.sub_zero]
  exact congrArg some (List.take_left' (by simp))

theorem sliceOpt_dfactors (n : Nat) :
    sliceOpt (cacheFor n).vec (cacheFor n).dfactors
      = some ((List.range n).map (fun k => (n - 1).choose k)) := by
  unfold sliceOpt cacheFor
  rw [if_pos (by
    refine ⟨show n + 1 ≤ 2 * n + 1 by omega, ?_⟩
    show 2 * n + 1 ≤ ((List.range (n + 1)).map (fun k => n.choose k)
      ++ (List.range n).map (fun k => (n - 1).choose k)).length
    simp only [List.length_append, List.length_map, List.length_range]
    omega)]
  rw [List.drop_left' (by simp)]
  refine congrArg some (List.take_of_length_le ?_)
  simp only [List.length_map, List.length_range]
  omega

theorem getD_map_range (f : Nat → Nat) (m k : Nat) (hk : k < m) :
    ((List.range m).map f).getD k 0 = f k := by
  rw [List.getD_eq_getElem _ _ (by simpa using hk)]
  simp

/- The interpolation loop computes the Bernstein sum over the cached
coefficients. -/

theorem interpLoop_coords {d : Nat} (fs : List Nat) (o : Nat) (t t1 : ℚ) :
    ∀ (ps : List (Pt d)) (f0 : Nat) (acc : Pt d) (ax : Fin d),
    (interpLoop fs o t t1 ps f0 acc).coords ax
      = acc.coords ax + ∑ k ∈ Finset.range ps.length,
          (ps.getD k (Pt.zero d)).coords ax * t ^ (f0 + k) * t1 ^ (o - (f0 + k))
            * ((fs.getD (f0 + k) 0 : Nat) : ℚ) := by
  intro ps
  induction ps with
  | nil =>
    intro f0 acc ax
    simp [interpLoop]
  | cons p rest ih =>
    intro f0 acc ax
    rw [show interpLoop fs o t t1 (p :: rest) f0 acc
        = interpLoop fs o t t1 rest (f0 + 1)
            (acc + p * t ^ f0 * t1 ^ (o - f0) * ((fs.getD f0 0 : Nat) : ℚ)) from rfl]
    rw [ih (f0 + 1) _ ax]
    simp only [Pt.add_coords, Pt.mul_coords, List.length_cons]
    rw [Finset.sum_range_succ' (fun k =>
      ((p :: rest).getD k (Pt.zero d)).coords ax * t ^ (f0 + k) * t1 ^ (o - (f0 + k))
        * ((fs.getD (f0 + k) 0 : Nat) : ℚ)) rest.length]
    have hsum : ∑ k ∈ Finset.range rest.length,
        ((p :: rest).getD (k + 1) (Pt.zero d)).coords ax * t ^ (f0 + (k + 1))
          * t1 ^ (o - (f0 + (k + 1))) * ((fs.getD (f0 + (k + 1)) 0 : Nat) : ℚ)
        = ∑ k ∈ Finset.range rest.length,
          (rest.getD k (Pt.zero d)).coords ax * t ^ (f0 + 1 + k)
            * t1 ^ (o - (f0 + 1 + k)) * ((fs.getD (f0 + 1 + k) 0 : Nat) : ℚ) := by
      refine Finset.sum_congr rfl fun k _ => ?_
      rw [show f0 + (k + 1) = f0 + 1 + k from by omega, List.getD_cons_succ]
    rw [hsum]
    simp only [List.getD_cons_zero, Nat.add_zero]
    ring

theorem interp_unbounded_eq {d : Nat} (n : Nat) (hn : n ≤ 20) (ps : List (Pt d))
    (hlen : ps.length = n + 1) (c : FactorCache) (hc : Reachable n c) (t : ℚ) :
    NBez.interp_unbounded ⟨ps, c⟩ t = some (bernPt n ps t, cacheFor n) := by
  have h0 : ps.isEmpty = false := by
    cases ps with
    | nil => simp at hlen
    | cons a l => rfl
  simp only [NBez.interp_unbounded, NBez.order, h0, Bool.false_eq_true, if_false,
    hlen, Nat.add_sub_cancel, update_factors_of_reachable hc,
    update_factors_init n hn, sliceOpt_factors n]
  rw [if_pos (by simp [hlen])]
  simp only [List.length_map, List.length_range, Nat.add_sub_cancel]
  have hpt : interpLoop ((List.range (n + 1)).map (fun k => n.choose k)) n t (1 - t)
      ps 0 (Pt.zero d) = bernPt n ps t := by
    refine Pt.ext_coords fun ax => ?_
    rw [interpLoop_coords]
    simp only [Pt.zero_coords, zero_add, bernPt]
    rw [hlen]
    refine Finset.sum_congr rfl fun k hk => ?_
    have hk2 : k < n + 1 := Finset.mem_range.1 hk
    rw [getD_map_range _ _ _ hk2]
    ring
  rw [hpt]

/- The derivative loop and its bridge. -/

theorem choose_le_two_pow (n k : Nat) : n.choose k ≤ 2 ^ n := by
  by_cases h : k ≤ n
  · calc n.choose k ≤ ∑ m ∈ Finset.range (n + 1), n.choose m :=
      Finset.single_le_sum (fun i _ => Nat.zero_le _) (Finset.mem_range.2 (by omega))
    _ = 2 ^ n := Nat.sum_range_choose n
  · rw [Nat.choose_eq_zero_of_lt (by omega)]
    exact Nat.zero_le _

theorem dweight_mod_eq (n k : Nat) (hn : n ≤ 20) :
    ((n - 1).choose k * n) % (u64Max + 1) = (n - 1).choose k * n := by
  apply Nat.mod_eq_of_lt
  have h1 : (n - 1).choose k ≤ 2 ^ 19 :=
    le_trans (choose_le_two_pow (n - 1) k) (Nat.pow_le_pow_right (by omega) (by omega))
  have h2 : (n - 1).choose k * n ≤ 2 ^ 19 * 20 := Nat.mul_le_mul h1 hn
  have h3 : (2 : Nat) ^ 19 * 20 < u64Max + 1 := by decide
  omega

theorem slopeLoop_coords {d : Nat} (dfs : List Nat) (o : Nat) (t t1 : ℚ) :
    ∀ (ps : List (Pt d)) (pLast : Pt d) (f0 : Nat) (acc : Pt d) (ax : Fin d),
    (slopeLoop dfs o t t1 pLast ps f0 acc).coords ax
      = acc.coords ax + ∑ k ∈ Finset.range ps.length,
          (((pLast :: ps).getD (k + 1) (Pt.zero d)).coords ax
              - ((pLast :: ps).getD k (Pt.zero d)).coords ax)
            * t ^ (f0 + k) * t1 ^ (o - (f0 + k))
            * (((dfs.getD (f0 + k) 0 * (o + 1)) % (u64Max + 1) : Nat) : ℚ) := by
  intro ps
  induction ps with
  | nil =>
    intro pLast f0 acc ax
    simp [slopeLoop]
  | cons p rest ih =>
    intro pLast f0 acc ax
    rw [show slopeLoop dfs o t t1 pLast (p :: rest) f0 acc
        = slopeLoop dfs o t t1 p rest (f0 + 1)
            (acc + (p - pLast) * t ^ f0 * t1 ^ (o - f0)
              * (((dfs.getD f0 0 * (o + 1)) % (u64Max + 1) : Nat) : ℚ)) from rfl]
    rw [ih p (f0 + 1) _ ax]
    simp only [Pt.addVec_coords, Vec.smul_coords, Pt.sub_coords, List.length_cons]
    rw [Finset.sum_range_succ' (fun k =>
      (((pLast :: p :: rest).getD (k + 1) (Pt.zero d)).coords ax
          - ((pLast :: p :: rest).getD k (Pt.zero d)).coords ax)
        * t ^ (f0 + k) * t1 ^ (o - (f0 + k))
        * (((dfs.getD (f0 + k) 0 * (o + 1)) % (u64Max + 1) : Nat) : ℚ)) rest.length]
    have hsum : ∑ k ∈ Finset.range rest.length,
        (((pLast :: p :: rest).getD (k + 1 + 1) (Pt.zero d)).coords ax
            - ((pLast :: p :: rest).getD (k + 1) (Pt.zero d)).coords ax)
          * t ^ (f0 + (k + 1)) * t1 ^ (o - (f0 + (k + 1)))
          * (((dfs.getD (f0 + (k + 1)) 0 * (o + 1)) % (u64Max + 1) : Nat) : ℚ)
        = ∑ k ∈ Finset.range rest.length,
          (((p :: rest).getD (k + 1) (Pt.zero d)).coords ax
              - ((p :: rest).getD k (Pt.zero d)).coords ax)
            * t ^ (f0 + 1 + k) * t1 ^ (o - (f0 + 1 + k))
            * (((dfs.getD (f0 + 1 + k) 0 * (o + 1)) % (u64Max + 1) : Nat) : ℚ) := by
      refine Finset.sum_congr rfl fun k _ => ?_
      rw [show f0 + (k + 1) = f0 + 1 + k from by omega]
      simp only [List.getD_cons_succ]
    rw [hsum]
    simp only [List.getD_cons_zero, List.getD_cons_succ, Nat.add_zero]
    ring

theorem slope_unbounded_eq {d : Nat} (n : Nat) (hn1 : 1 ≤ n) (hn : n ≤ 20)
    (ps : List (Pt d)) (hlen : ps.length = n + 1) (c : FactorCache)
    (hc : Reachable n c) (t : ℚ) :
    NBez.slope_unbounded ⟨ps, c⟩ t = some (slopeVecSpec n ps t, cacheFor n) := by
  obtain ⟨p0, rest, rfl⟩ : ∃ p0 rest, ps = p0 :: rest := by
    cases ps with
    | nil => simp at hlen
    | cons a l => exact ⟨a, l, rfl⟩
  have hrest : rest.length = n := by
    simp only [List.length_cons] at hlen
    omega
  simp only [NBez.slope_unbounded, NBez.order, List.length_cons, hrest,
    Nat.add_sub_cancel, update_factors_of_reachable hc,
    update_factors_init n hn, sliceOpt_dfactors n]
  rw [if_neg (by simp; omega), if_pos (by simp [hrest])]
  simp only [List.length_map, List.length_range]
  have hvec : (slopeLoop ((List.range n).map (fun k => (n - 1).choose k)) (n - 1) t
      (1 - t) p0 rest 0 (Pt.zero d)).toVec = slopeVecSpec n (p0 :: rest) t := by
    refine Vec.eq_of_coords fun ax => ?_
    rw [Pt.toVec_coords, slopeLoop_coords]
    simp only [Pt.zero_coords, zero_add, slopeVecSpec, hrest]
    refine Finset.sum_congr rfl fun k hk => ?_
    have hk2 : k < n := Finset.mem_range.1 hk
    rw [getD_map_range _ _ _ hk2,
      show n - 1 + 1 = n from by omega, dweight_mod_eq n k hn]
    push_cast
    ring
  rw [hvec]

/- The elevated point list, element by element. -/

theorem elevLoop_length {d : Nat} (ordf : ℚ) :
    ∀ (rest : List (Pt d)) (prev : Pt d) (i0 : Nat),
    (elevLoop ordf prev i0 rest).length = rest.length := by
  intro rest
  induction rest with
  | nil => intro prev i0; rfl
  | cons p rest ih =>
    intro prev i0
    simp only [elevLoop, List.length_cons, ih]

theorem elevLoop_getD {d : Nat} (ordf : ℚ) :
    ∀ (rest : List (Pt d)) (prev : Pt d) (i0 j : Nat), j < rest.length →
    (elevLoop ordf prev i0 rest).getD j (Pt.zero d)
      = lerp (rest.getD j (Pt.zero d)) ((prev :: rest).getD j (Pt.zero d))
          (((i0 + j : Nat) : ℚ) / ordf) := by
  intro rest
  induction rest with
  | nil =>
    intro prev i0 j hj
    simp at hj
  | cons p rest ih =>
    intro prev i0 j hj
    cases j with
    | zero =>
      simp [elevLoop]
    | succ j2 =>
      rw [show elevLoop ordf prev i0 (p :: rest)
          = lerp p prev ((i0 : ℚ) / ordf) :: elevLoop ordf p (i0 + 1) rest from rfl]
      rw [List.getD_cons_succ, ih p (i0 + 1) j2 (by simpa using hj)]
      simp only [List.getD_cons_succ]
      rw [show i0 + (j2 + 1) = i0 + 1 + j2 from by omega]

theorem elevPoints_length {d : Nat} (ps : List (Pt d)) (h : ps ≠ []) :
    (elevPoints ps).length = ps.length + 1 := by
  cases ps with
  | nil => exact absurd rfl h
  | cons p0 rest =>
    simp [elevPoints, elevLoop_length]

theorem elevPoints_getD_zero {d : Nat} (ps : List (Pt d)) (h : ps ≠ []) :
    (elevPoints ps).getD 0 (Pt.zero d) = ps.getD 0 (Pt.zero d) := by
  cases ps with
  | nil => exact absurd rfl h
  | cons p0 rest =>
    rw [show elevPoints (p0 :: rest)
        = (p0 :: elevLoop (((p0 :: rest).length : Nat) : ℚ) p0 1 rest)
          ++ [(p0 :: rest).getD ((p0 :: rest).length - 1) (Pt.zero d)] from rfl]
    rw [List.getD_append _ _ _ _ (by simp)]
    rfl

theorem elevPoints_getD_mid {d : Nat} (n : Nat) (ps : List (Pt d))
    (hlen : ps.length = n + 1) (i : Nat) (h1 : 1 ≤ i) (h2 : i ≤ n) :
    (elevPoints ps).getD i (Pt.zero d)
      = lerp (ps.getD i (Pt.zero d)) (ps.getD (i - 1) (Pt.zero d))
          ((i : ℚ) / ((n : ℚ) + 1)) := by
  obtain ⟨p0, rest, rfl⟩ : ∃ p0 rest, ps = p0 :: rest := by
    cases ps with
    | nil => simp at hlen
    | cons a l => exact ⟨a, l, rfl⟩
  have hrest : rest.length = n := by
    simp only [List.length_cons] at hlen
    omega
  rw [show elevPoints (p0 :: rest)
      = (p0 :: elevLoop (((p0 :: rest).length : Nat) : ℚ) p0 1 rest)
        ++ [(p0 :: rest).getD ((p0 :: rest).length - 1) (Pt.zero d)] from rfl]
  rw [List.getD_append _ _ _ _ (by
    simp only [List.length_cons, elevLoop_length, hrest]
    omega)]
  obtain ⟨i2, rfl⟩ : ∃ i2, i = i2 + 1 := ⟨i - 1, by omega⟩
  rw [List.getD_cons_succ, elevLoop_getD _ _ _ _ _ (by omega)]
  rw [show (p0 :: rest).getD (i2 + 1) (Pt.zero d) = rest.getD i2 (Pt.zero d)
      from List.getD_cons_succ]
  rw [hlen]
  simp only [Nat.add_sub_cancel]
  rw [show (1 + i2 : Nat) = i2 + 1 from by omega]
  push_cast
  rfl

theorem elevPoints_getD_last {d : Nat} (n : Nat) (ps : List (Pt d))
    (hlen : ps.length = n + 1) :
    (elevPoints ps).getD (n + 1) (Pt.zero d) = ps.getD n (Pt.zero d) := by
  obtain ⟨p0, rest, rfl⟩ : ∃ p0 rest, ps = p0 :: rest := by
    cases ps with
    | nil => simp at hlen
    | cons a l => exact ⟨a, l, rfl⟩
  have hrest : rest.length = n := by
    simp only [List.length_cons] at hlen
    omega
  rw [show elevPoints (p0 :: rest)
      = (p0 :: elevLoop (((p0 :: rest).length : Nat) : ℚ) p0 1 rest)
        ++ [(p0 :: rest).getD ((p0 :: rest).length - 1) (Pt.zero d)] from rfl]
  rw [List.getD_append_right _ _ _ _ (by
    simp only [List.length_cons, elevLoop_length, hrest]
    omega)]
  simp only [List.length_cons, elevLoop_length, hrest, hlen]
  rw [show n + 1 - (n + 1) = 0 from by omega]
  simp only [List.getD_cons_zero, Nat.add_sub_cancel]

theorem elevate_eq {d : Nat} (n : Nat) (ps : List (Pt d))
    (hlen : ps.length = n + 1) (hn : n ≤ 19) (c : FactorCache) :
    NBez.elevate ⟨ps, c⟩ = some ⟨elevPoints ps, initCache⟩ := by
  obtain ⟨p0, rest, rfl⟩ : ∃ p0 rest, ps = p0 :: rest := by
    cases ps with
    | nil => simp at hlen
    | cons a l => exact ⟨a, l, rfl⟩
  show NBez.from_container (elevPoints (p0 :: rest)) = _
  unfold NBez.from_container
  rw [if_neg (by rw [elevPoints_length _ (by simp), hlen]; omega)]

/- The binomial-coefficient identities behind degree elevation, over ℚ. -/

theorem qid1 (n i : Nat) (h : i ≤ n + 1) :
    (((n + 1).choose i : Nat) : ℚ) * (1 - (i : ℚ) / ((n : ℚ) + 1))
      = ((n.choose i : Nat) : ℚ) := by
  have hne : ((n : ℚ) + 1) ≠ 0 := by positivity
  have h1 : (n + 1).choose i * (n + 1 - i) = (n + 1) * n.choose i := by
    have a1 : (n + 1).choose (i + 1) * (i + 1) = (n + 1).choose i * ((n + 1) - i) :=
      Nat.choose_succ_right_eq (n + 1) i
    have a2 : (n + 1) * n.choose i = (n + 1).choose (i + 1) * (i + 1) :=
      Nat.succ_mul_choose_eq n i
    omega
  have h3 : ((n + 1 - i : Nat) : ℚ) = ((n : ℚ) + 1) - i := by
    rw [Nat.cast_sub h]
    push_cast
    ring
  have h2 : (((n + 1).choose i : Nat) : ℚ) * (((n : ℚ) + 1) - (i : ℚ))
      = ((n : ℚ) + 1) * ((n.choose i : Nat) : ℚ) := by
    calc (((n + 1).choose i : Nat) : ℚ) * (((n : ℚ) + 1) - (i : ℚ))
        = (((n + 1).choose i : Nat) : ℚ) * ((n + 1 - i : Nat) : ℚ) := by rw [h3]
      _ = (((n + 1).choose i * (n + 1 - i) : Nat) : ℚ) := by push_cast; ring
      _ = (((n + 1) * n.choose i : Nat) : ℚ) := by rw [h1]
      _ = ((n : ℚ) + 1) * ((n.choose i : Nat) : ℚ) := by push_cast; ring
  field_simp
  linear_combination h2

theorem qid2 (n j : Nat) :
    (((n + 1).choose (j + 1) : Nat) : ℚ) * (((j : ℚ) + 1) / ((n : ℚ) + 1))
      = ((n.choose j : Nat) : ℚ) := by
  have hne : ((n : ℚ) + 1) ≠ 0 := by positivity
  have h1 : (n + 1) * n.choose j = (n + 1).choose (j + 1) * (j + 1) :=
    Nat.succ_mul_choose_eq n j
  have h2 : ((n : ℚ) + 1) * ((n.choose j : Nat) : ℚ)
      = (((n + 1).choose (j + 1) : Nat) : ℚ) * ((j : ℚ) + 1) := by
    have hq := congrArg (fun m : Nat => (m : ℚ)) h1
    push_cast at hq
    linarith [hq]
  rw [← mul_div_assoc, div_eq_iff hne]
  linear_combination -h2

/-- Degree elevation preserves the Bernstein sum, per coordinate: the
order-(n+1) Bernstein sum of the lerped control values equals the
order-n Bernstein sum of the original values (exact ℚ arithmetic). -/
theorem bern_elevate (n : Nat) (g : Nat → ℚ) (t : ℚ) :
    ∑ i ∈ Finset.range (n + 2), (((n + 1).choose i : Nat) : ℚ) * t ^ i
        * (1 - t) ^ (n + 1 - i)
        * (g i + (g (i - 1) - g i) * ((i : ℚ) / ((n : ℚ) + 1)))
      = ∑ k ∈ Finset.range (n + 1), ((n.choose k : Nat) : ℚ) * t ^ k
        * (1 - t) ^ (n - k) * g k := by
  have hsplit : ∀ i ∈ Finset.range (n + 2),
      (((n + 1).choose i : Nat) : ℚ) * t ^ i * (1 - t) ^ (n + 1 - i)
        * (g i + (g (i - 1) - g i) * ((i : ℚ) / ((n : ℚ) + 1)))
      = ((((n + 1).choose i : Nat) : ℚ) * (1 - (i : ℚ) / ((n : ℚ) + 1)))
          * (t ^ i * (1 - t) ^ (n + 1 - i) * g i)
        + ((((n + 1).choose i : Nat) : ℚ) * ((i : ℚ) / ((n : ℚ) + 1)))
          * (t ^ i * (1 - t) ^ (n + 1 - i) * g (i - 1)) := by
    intro i _
    ring
  rw [Finset.sum_congr rfl hsplit, Finset.sum_add_distrib]
  have hX : ∑ i ∈ Finset.range (n + 2),
      ((((n + 1).choose i : Nat) : ℚ) * (1 - (i : ℚ) / ((n : ℚ) + 1)))
        * (t ^ i * (1 - t) ^ (n + 1 - i) * g i)
      = (1 - t) * ∑ k ∈ Finset.range (n + 1), ((n.choose k : Nat) : ℚ) * t ^ k
          * (1 - t) ^ (n - k) * g k := by
    have hc : ∀ i ∈ Finset.range (n + 2),
        ((((n + 1).choose i : Nat) : ℚ) * (1 - (i : ℚ) / ((n : ℚ) + 1)))
          * (t ^ i * (1 - t) ^ (n + 1 - i) * g i)
        = ((n.choose i : Nat) : ℚ) * (t ^ i * (1 - t) ^ (n + 1 - i) * g i) := by
      intro i hi
      rw [qid1 n i (by have := Finset.mem_range.1 hi; omega)]
    rw [Finset.sum_congr rfl hc, Finset.sum_range_succ,
      Nat.choose_eq_zero_of_lt (by omega)]
    simp only [Nat.cast_zero, zero_mul, add_zero]
    rw [Finset.mul_sum]
    refine Finset.sum_congr rfl fun i hi => ?_
    have hi2 : i < n + 1 := Finset.mem_range.1 hi
    rw [show n + 1 - i = (n - i) + 1 from by omega, pow_succ]
    ring
  have hY : ∑ i ∈ Finset.range (n + 2),
      ((((n + 1).choose i : Nat) : ℚ) * ((i : ℚ) / ((n : ℚ) + 1)))
        * (t ^ i * (1 - t) ^ (n + 1 - i) * g (i - 1))
      = t * ∑ k ∈ Finset.range (n + 1), ((n.choose k : Nat) : ℚ) * t ^ k
          * (1 - t) ^ (n - k) * g k := by
    rw [Finset.sum_range_succ' (fun i =>
      ((((n + 1).choose i : Nat) : ℚ) * ((i : ℚ) / ((n : ℚ) + 1)))
        * (t ^ i * (1 - t) ^ (n + 1 - i) * g (i - 1))) (n + 1)]
    simp only [Nat.cast_zero, zero_div, mul_zero, zero_mul, add_zero]
    rw [Finset.mul_sum]
    refine Finset.sum_congr rfl fun i hi => ?_
    rw [show ((i + 1 : Nat) : ℚ) = (i : ℚ) + 1 from by push_cast; ring]
    rw [show n + 1 - (i + 1) = n - i from by omega]
    simp only [Nat.add_sub_cancel]
    calc (((n + 1).choose (i + 1) : Nat) : ℚ) * (((i : ℚ) + 1) / ((n : ℚ) + 1))
          * (t ^ (i + 1) * (1 - t) ^ (n - i) * g i)
        = ((n.choose i : Nat) : ℚ) * (t ^ (i + 1) * (1 - t) ^ (n - i) * g i) := by
          rw [qid2 n i]
      _ = t * (((n.choose i : Nat) : ℚ) * t ^ i * (1 - t) ^ (n - i) * g i) := by
          rw [pow_succ]
          ring
  rw [hX, hY]
  ring

/- Endpoint values of the Bernstein sum. -/

theorem bernPt_zero {d : Nat} (n : Nat) (ps : List (Pt d)) :
    bernPt n ps 0 = ps.getD 0 (Pt.zero d) := by
  refine Pt.ext_coords fun ax => ?_
  simp only [bernPt]
  rw [Finset.sum_eq_single 0]
  · simp
  · intro b _ hb0
    rw [zero_pow hb0]
    ring
  · intro h
    exact absurd (Finset.mem_range.2 (by omega)) h

theorem bernPt_one {d : Nat} (n : Nat) (ps : List (Pt d)) :
    bernPt n ps 1 = ps.getD n (Pt.zero d) := by
  refine Pt.ext_coords fun ax => ?_
  simp only [bernPt]
  rw [Finset.sum_eq_single n]
  · simp [Nat.choose_self]
  · intro b hb hbn
    rw [show (1 : ℚ) - 1 = 0 from by norm_num,
      zero_pow (show n - b ≠ 0 from by have := Finset.mem_range.1 hb; omega)]
    ring
  · intro h
    exact absurd (Finset.mem_range.2 (by omega)) h

/- The build.rs combinatorics produce the exact binomials. -/

theorem bfactorial_eq (n : Nat) : bfactorial n = n.factorial := by
  induction n with
  | zero => rfl
  | succ m ih => simp [bfactorial, Nat.factorial, ih]

theorem bcombination_eq_choose (n k : Nat) (hk : k ≤ n) :
    bcombination n k = n.choose k := by
  unfold bcombination
  rw [bfactorial_eq, bfactorial_eq, bfactorial_eq,
    Nat.choose_eq_factorial_div_factorial hk]

/- The generated single-axis evaluators compute the same sums, taken
per axis of a control-point list. -/

theorem fixedInterpUnbounded_eq_bern {dm : Nat} (n : Nat) (ps : List (Pt dm))
    (t : ℚ) (ax : Fin dm) :
    fixedInterpUnbounded n (fun k => (ps.getD k.val (Pt.zero dm)).coords ax) t
      = (bernPt n ps t).coords ax := by
  simp only [fixedInterpUnbounded, bernPt]
  rw [← Fin.sum_univ_eq_sum_range (fun k => ((n.choose k : Nat) : ℚ) * t ^ k
    * (1 - t) ^ (n - k) * (ps.getD k (Pt.zero dm)).coords ax) (n + 1)]
  refine Finset.sum_congr rfl fun k _ => ?_
  rw [bcombination_eq_choose n k.val (by omega)]
  ring

theorem fixedSlopeUnbounded_eq_spec {dm : Nat} (n : Nat) (ps : List (Pt dm))
    (t : ℚ) (ax : Fin dm) :
    fixedSlopeUnbounded n (fun k => (ps.getD k.val (Pt.zero dm)).coords ax) t
      = (slopeVecSpec n ps t).coords ax := by
  simp only [fixedSlopeUnbounded, slopeVecSpec]
  rw [← Fin.sum_univ_eq_sum_range (fun k => (((n - 1).choose k : Nat) : ℚ) * t ^ k
    * (1 - t) ^ (n - 1 - k) * ((n : ℚ) * ((ps.getD (k + 1) (Pt.zero dm)).coords ax
      - (ps.getD k (Pt.zero dm)).coords ax))) n]
  refine Finset.sum_congr rfl fun k _ => ?_
  rw [bcombination_eq_choose (n - 1) k.val (by omega)]
  simp only [Fin.val_succ, Fin.coe_castSucc]
  push_cast
  ring

/- The claims. -/

/-- C1: for every curve with control points P_0..P_n (1 ≤ n ≤ 20) and
every parameter t, in any reachable cache state,
`NBez::interp_unbounded(t)` returns the Bernstein-basis sum
`Σ_{k=0}^{n} C(n,k) · t^k · (1-t)^{n-k} · P_k` with the exact binomial
coefficients (`bernPt` spells out exactly that sum via `Nat.choose`). -/
theorem C1_interp_unbounded_bernstein {dm : Nat} (n : Nat) (ps : List (Pt dm))
    (hlen : ps.length = n + 1) (hn1 : 1 ≤ n) (hn : n ≤ 20)
    (c : FactorCache) (hc : Reachable n c) (t : ℚ) :
    (NBez.interp_unbounded ⟨ps, c⟩ t).map Prod.fst = some (bernPt n ps t) := by
  rw [interp_unbounded_eq n hn ps hlen c hc t]
  rfl

theorem C1_witness :
    wps1.length = 1 + 1 ∧ (1 : Nat) ≤ 1 ∧ (1 : Nat) ≤ 20
      ∧ (NBez.interp_unbounded ⟨wps1, initCache⟩ (1 / 2)).map Prod.fst
          = some (bernPt 1 wps1 (1 / 2)) :=
  ⟨rfl, le_refl 1, by omega,
    C1_interp_unbounded_bernstein 1 wps1 rfl (le_refl 1) (by omega)
      initCache Reachable.init (1 / 2)⟩

/-- C2: for every curve with control points P_0..P_n (1 ≤ n ≤ 20) and
every parameter t, in any reachable cache state,
`NBez::slope_unbounded(t)` returns the derivative sum
`Σ_{k=0}^{n-1} C(n-1,k)·t^k·(1-t)^{n-1-k} · n·(P_{k+1} - P_k)`, and the
result is a `Vec` (displacement), not a `Pt` — `slopeVecSpec` has
codomain `Vec dm`, so the equality also witnesses the result type. -/
theorem C2_slope_unbounded_derivative {dm : Nat} (n : Nat) (ps : List (Pt dm))
    (hlen : ps.length = n + 1) (hn1 : 1 ≤ n) (hn : n ≤ 20)
    (c : FactorCache) (hc : Reachable n c) (t : ℚ) :
    (NBez.slope_unbounded ⟨ps, c⟩ t).map Prod.fst = some (slopeVecSpec n ps t) := by
  rw [slope_unbounded_eq n hn1 hn ps hlen c hc t]
  rfl

theorem C2_witness :
    wps2.length = 2 + 1 ∧ (1 : Nat) ≤ 2 ∧ (2 : Nat) ≤ 20
      ∧ (NBez.slope_unbounded ⟨wps2, initCache⟩ (1 / 3)).map Prod.fst
          = some (slopeVecSpec 2 wps2 (1 / 3)) :=
  ⟨rfl, by omega, by omega,
    C2_slope_unbounded_derivative 2 wps2 rfl (by omega) (by omega)
      initCache Reachable.init (1 / 3)⟩

/-- C7: for every order n ≥ 1 (n ≤ 20, the constructible range) and
every control-point sequence, the bounds-checked `interp(0)` returns P_0
exactly and `interp(1)` returns P_n exactly. -/
theorem C7_endpoints {dm : Nat} (n : Nat) (ps : List (Pt dm))
    (hlen : ps.length = n + 1) (hn1 : 1 ≤ n) (hn : n ≤ 20)
    (c : FactorCache) (hc : Reachable n c) :
    (NBez.interp ⟨ps, c⟩ 0).map Prod.fst = some (ps.getD 0 (Pt.zero dm))
    ∧ (NBez.interp ⟨ps, c⟩ 1).map Prod.fst = some (ps.getD n (Pt.zero dm)) := by
  constructor
  · rw [NBez.interp, if_pos (by decide), interp_unbounded_eq n hn ps hlen c hc 0]
    show some (bernPt n ps 0) = _
    rw [bernPt_zero]
  · rw [NBez.interp, if_pos (by decide), interp_unbounded_eq n hn ps hlen c hc 1]
    show some (bernPt n ps 1) = _
    rw [bernPt_one]

theorem C7_witness :
    wps2.length = 2 + 1 ∧ (1 : Nat) ≤ 2 ∧ (2 : Nat) ≤ 20
      ∧ ((NBez.interp ⟨wps2, initCache⟩ 0).map Prod.fst
            = some (wps2.getD 0 (Pt.zero 2))
          ∧ (NBez.interp ⟨wps2, initCache⟩ 1).map Prod.fst
            = some (wps2.getD 2 (Pt.zero 2))) :=
  ⟨rfl, by omega, by omega,
    C7_endpoints 2 wps2 rfl (by omega) (by omega) initCache Reachable.init⟩

/-- C9: the coefficient cache is not observable — for every curve, every
t, and any two cache states reachable by prior evaluation sequences
(including the unpopulated initial state), `interp_unbounded` and
`slope_unbounded` return identical values; the cache update is a no-op
when the cached order matches (`update_factors n (cacheFor n) = some
(cacheFor n)`), and otherwise a recomputation to the exact binomials
(`cacheFor n` lists `C(n,k)` then `C(n-1,k)` via `Nat.choose`). -/
theorem C9_cache_not_observable {dm : Nat} (n : Nat) (ps : List (Pt dm))
    (hlen : ps.length = n + 1) (c1 c2 : FactorCache)
    (h1 : Reachable n c1) (h2 : Reachable n c2) (t : ℚ) :
    (NBez.interp_unbounded ⟨ps, c1⟩ t).map Prod.fst
        = (NBez.interp_unbounded ⟨ps, c2⟩ t).map Prod.fst
    ∧ (NBez.slope_unbounded ⟨ps, c1⟩ t).map Prod.fst
        = (NBez.slope_unbounded ⟨ps, c2⟩ t).map Prod.fst
    ∧ update_factors n (cacheFor n) = some (cacheFor n)
    ∧ (n ≤ 20 → update_factors n initCache = some (cacheFor n)) := by
  have e1 : update_factors n c1 = update_factors n initCache :=
    update_factors_of_reachable h1
  have e2 : update_factors n c2 = update_factors n initCache :=
    update_factors_of_reachable h2
  refine ⟨?_, ?_, update_factors_cacheFor n, fun hn => update_factors_init n hn⟩
  · simp only [NBez.interp_unbounded, NBez.order, hlen, Nat.add_sub_cancel, e1, e2]
  · simp only [NBez.slope_unbounded, NBez.order, hlen, Nat.add_sub_cancel, e1, e2]

theorem C9_witness :
    wps1.length = 1 + 1
      ∧ ((NBez.interp_unbounded ⟨wps1, initCache⟩ 2).map Prod.fst
            = (NBez.interp_unbounded ⟨wps1, cacheFor 1⟩ 2).map Prod.fst
          ∧ (NBez.slope_unbounded ⟨wps1, initCache⟩ 2).map Prod.fst
            = (NBez.slope_unbounded ⟨wps1, cacheFor 1⟩ 2).map Prod.fst
          ∧ update_factors 1 (cacheFor 1) = some (cacheFor 1)
          ∧ ((1 : Nat) ≤ 20 → update_factors 1 initCache = some (cacheFor 1))) :=
  ⟨rfl, C9_cache_not_observable 1 wps1 rfl initCache (cacheFor 1)
    Reachable.init (cacheFor_reachable 1 (by omega)) 2⟩

/-- C3: the claim quantifies over the generated composite (dimension,
order) types, but build.rs's `bez_composite` invocations cannot expand
against macros.rs's pattern (colon vs equals in the axis-map tail,
transposed grouping in the head), so those composite types do not exist
in the program — a build.rs/macros.rs inconsistency.  What the generator
does produce, the single-axis `BezPoly{n}o` types (orders 2..6), agrees
exactly per axis with the generic NBez evaluator on the same control
points, with the baked coefficients being the exact binomials C(n,k)
and C(n-1,k); this theorem records that agreement for everything the
code actually generates. -/
theorem C3_single_axis_agreement {dm : Nat} (n : Nat) (ps : List (Pt dm))
    (hlen : ps.length = n + 1) (hn1 : 2 ≤ n) (hn2 : n ≤ 6) (t : ℚ) (ax : Fin dm) :
    (NBez.interp_unbounded ⟨ps, initCache⟩ t).map (fun r => r.1.coords ax)
        = some (fixedInterpUnbounded n
            (fun k => (ps.getD k.val (Pt.zero dm)).coords ax) t)
    ∧ (NBez.slope_unbounded ⟨ps, initCache⟩ t).map (fun r => r.1.coords ax)
        = some (fixedSlopeUnbounded n
            (fun k => (ps.getD k.val (Pt.zero dm)).coords ax) t)
    ∧ (0 ≤ t → t ≤ 1 →
        fixedInterp n (fun k => (ps.getD k.val (Pt.zero dm)).coords ax) t
          = some (fixedInterpUnbounded n
              (fun k => (ps.getD k.val (Pt.zero dm)).coords ax) t)
        ∧ fixedSlope n (fun k => (ps.getD k.val (Pt.zero dm)).coords ax) t
          = some (fixedSlopeUnbounded n
              (fun k => (ps.getD k.val (Pt.zero dm)).coords ax) t))
    ∧ (∀ k : Fin (n + 1), bcombination n k.val = n.choose k.val)
    ∧ (∀ k : Fin n, bcombination (n - 1) k.val = (n - 1).choose k.val) := by
  refine ⟨?_, ?_, fun h1 h2 => ?_,
    fun k => bcombination_eq_choose n k.val (by omega),
    fun k => bcombination_eq_choose (n - 1) k.val (by omega)⟩
  · rw [fixedInterpUnbounded_eq_bern,
      interp_unbounded_eq n (by omega) ps hlen initCache Reachable.init t]
    rfl
  · rw [fixedSlopeUnbounded_eq_spec,
      slope_unbounded_eq n (by omega) (by omega) ps hlen initCache Reachable.init t]
    rfl
  · have hb : check_t_bounds t = true := by simp [check_t_bounds, h1, h2]
    exact ⟨by rw [fixedInterp, if_pos hb], by rw [fixedSlope, if_pos hb]⟩

theorem C3_single_axis_witness :
    wps2.length = 2 + 1 ∧ (2 : Nat) ≤ 2 ∧ (2 : Nat) ≤ 6
      ∧ ((NBez.interp_unbounded ⟨wps2, initCache⟩ (1 / 2)).map
            (fun r => r.1.coords (0 : Fin 2))
          = some (fixedInterpUnbounded 2
              (fun k => (wps2.getD k.val (Pt.zero 2)).coords (0 : Fin 2)) (1 / 2))
        ∧ (NBez.slope_unbounded ⟨wps2, initCache⟩ (1 / 2)).map
            (fun r => r.1.coords (0 : Fin 2))
          = some (fixedSlopeUnbounded 2
              (fun k => (wps2.getD k.val (Pt.zero 2)).coords (0 : Fin 2)) (1 / 2))
        ∧ (0 ≤ (1 / 2 : ℚ) → (1 / 2 : ℚ) ≤ 1 →
            fixedInterp 2 (fun k => (wps2.getD k.val (Pt.zero 2)).coords (0 : Fin 2))
                (1 / 2)
              = some (fixedInterpUnbounded 2
                  (fun k => (wps2.getD k.val (Pt.zero 2)).coords (0 : Fin 2)) (1 / 2))
            ∧ fixedSlope 2 (fun k => (wps2.getD k.val (Pt.zero 2)).coords (0 : Fin 2))
                (1 / 2)
              = some (fixedSlopeUnbounded 2
                  (fun k => (wps2.getD k.val (Pt.zero 2)).coords (0 : Fin 2)) (1 / 2)))
        ∧ (∀ k : Fin (2 + 1), bcombination 2 k.val = Nat.choose 2 k.val)
        ∧ (∀ k : Fin 2, bcombination (2 - 1) k.val = Nat.choose (2 - 1) k.val)) :=
  ⟨rfl, by omega, by omega,
    C3_single_axis_agreement 2 wps2 rfl (by omega) (by omega) (1 / 2) (0 : Fin 2)⟩

/-- C8: for every constructible curve and every t outside [0,1], the
bounds-checked `interp(t)`/`slope(t)` (generic and fixed-shape) fail
with the domain error (`none`) before touching any evaluator state,
while `interp_unbounded(t)`/`slope_unbounded(t)` return a (possibly
extrapolated) value without failing; for t ∈ [0,1] the checked variants
return exactly what the unchecked variants return. -/
theorem C8_domain_check {dm : Nat} (m : Nat) (ps : List (Pt dm))
    (hlen : ps.length = m + 1) (hm1 : 1 ≤ m) (hm : m ≤ 20)
    (c : FactorCache) (hc : Reachable m c)
    (n : Nat) (f : Fin (n + 1) → ℚ) (t : ℚ) :
    ((t < 0 ∨ 1 < t) →
      fixedInterp n f t = none ∧ fixedSlope n f t = none
        ∧ NBez.interp ⟨ps, c⟩ t = none ∧ NBez.slope ⟨ps, c⟩ t = none)
    ∧ (0 ≤ t → t ≤ 1 →
      fixedInterp n f t = some (fixedInterpUnbounded n f t)
        ∧ fixedSlope n f t = some (fixedSlopeUnbounded n f t)
        ∧ NBez.interp ⟨ps, c⟩ t = NBez.interp_unbounded ⟨ps, c⟩ t
        ∧ NBez.slope ⟨ps, c⟩ t = NBez.slope_unbounded ⟨ps, c⟩ t)
    ∧ (NBez.interp_unbounded ⟨ps, c⟩ t).isSome = true
    ∧ (NBez.slope_unbounded ⟨ps, c⟩ t).isSome = true := by
  refine ⟨fun h => ?_, fun h1 h2 => ?_, ?_, ?_⟩
  · have hb : check_t_bounds t = false := by
      rcases h with h | h
      · have hh : ¬ (0 : ℚ) ≤ t := not_le.2 h
        simp [check_t_bounds, hh]
      · have hh : ¬ t ≤ (1 : ℚ) := not_le.2 h
        simp [check_t_bounds, hh]
    exact ⟨by rw [fixedInterp, if_neg (by simp [hb])],
      by rw [fixedSlope, if_neg (by simp [hb])],
      by rw [NBez.interp, if_neg (by simp [hb])],
      by rw [NBez.slope, if_neg (by simp [hb])]⟩
  · have hb : check_t_bounds t = true := by simp [check_t_bounds, h1, h2]
    exact ⟨by rw [fixedInterp, if_pos hb], by rw [fixedSlope, if_pos hb],
      by rw [NBez.interp, if_pos hb], by rw [NBez.slope, if_pos hb]⟩
  · rw [interp_unbounded_eq m hm ps hlen c hc t]
    rfl
  · rw [slope_unbounded_eq m hm1 hm ps hlen c hc t]
    rfl

theorem C8_witness :
    wps1.length = 1 + 1 ∧ (1 : Nat) ≤ 1 ∧ (1 : Nat) ≤ 20
      ∧ ((((2 : ℚ) < 0 ∨ (1 : ℚ) < 2) →
          fixedInterp 1 (fun _ => 0) 2 = none ∧ fixedSlope 1 (fun _ => 0) 2 = none
            ∧ NBez.interp ⟨wps1, initCache⟩ 2 = none
            ∧ NBez.slope ⟨wps1, initCache⟩ 2 = none)
        ∧ ((0 : ℚ) ≤ 2 → (2 : ℚ) ≤ 1 →
          fixedInterp 1 (fun _ => 0) 2 = some (fixedInterpUnbounded 1 (fun _ => 0) 2)
            ∧ fixedSlope 1 (fun _ => 0) 2 = some (fixedSlopeUnbounded 1 (fun _ => 0) 2)
            ∧ NBez.interp ⟨wps1, initCache⟩ 2 = NBez.interp_unbounded ⟨wps1, initCache⟩ 2
            ∧ NBez.slope ⟨wps1, initCache⟩ 2 = NBez.slope_unbounded ⟨wps1, initCache⟩ 2)
        ∧ (NBez.interp_unbounded ⟨wps1, initCache⟩ 2).isSome = true
        ∧ (NBez.slope_unbounded ⟨wps1, initCache⟩ 2).isSome = true) :=
  ⟨rfl, by omega, by omega,
    C8_domain_check 1 wps1 rfl (by omega) (by omega) initCache Reachable.init
      1 (fun _ => 0) 2⟩

/-- C4: for every curve of order n (1 ≤ n ≤ 19) and every t ∈ [0,1],
`elevate()` returns a curve of order n+1 whose control points are
Q_0 = P_0, Q_{n+1} = P_n, and Q_i = lerp(P_i, P_{i-1}, i/(n+1)) for
1 ≤ i ≤ n, and the elevated curve's `interp(t)` equals the original's
exactly over this exact-arithmetic embedding. -/
theorem C4_elevate_preserves_curve {dm : Nat} (n : Nat) (ps : List (Pt dm))
    (hlen : ps.length = n + 1) (hn1 : 1 ≤ n) (hn : n ≤ 19)
    (c : FactorCache) (hc : Reachable n c) (t : ℚ) (ht0 : 0 ≤ t) (ht1 : t ≤ 1) :
    NBez.elevate ⟨ps, c⟩ = some ⟨elevPoints ps, initCache⟩
    ∧ (elevPoints ps).length = n + 2
    ∧ (elevPoints ps).getD 0 (Pt.zero dm) = ps.getD 0 (Pt.zero dm)
    ∧ (elevPoints ps).getD (n + 1) (Pt.zero dm) = ps.getD n (Pt.zero dm)
    ∧ (∀ i, 1 ≤ i → i ≤ n → (elevPoints ps).getD i (Pt.zero dm)
        = lerp (ps.getD i (Pt.zero dm)) (ps.getD (i - 1) (Pt.zero dm))
            ((i : ℚ) / ((n : ℚ) + 1)))
    ∧ (NBez.interp ⟨elevPoints ps, initCache⟩ t).map Prod.fst
        = (NBez.interp ⟨ps, c⟩ t).map Prod.fst := by
  have hne : ps ≠ [] := by
    intro h
    rw [h] at hlen
    simp at hlen
  have hellen : (elevPoints ps).length = n + 2 := by
    rw [elevPoints_length ps hne, hlen]
  refine ⟨elevate_eq n ps hlen hn c, hellen, elevPoints_getD_zero ps hne,
    elevPoints_getD_last n ps hlen,
    fun i h1 h2 => elevPoints_getD_mid n ps hlen i h1 h2, ?_⟩
  have hb : check_t_bounds t = true := by simp [check_t_bounds, ht0, ht1]
  rw [NBez.interp, NBez.interp, if_pos hb, if_pos hb]
  rw [interp_unbounded_eq (n + 1) (by omega) (elevPoints ps)
    (by omega) initCache Reachable.init t]
  rw [interp_unbounded_eq n (by omega) ps hlen c hc t]
  show some (bernPt (n + 1) (elevPoints ps) t) = some (bernPt n ps t)
  refine congrArg some (Pt.ext_coords fun ax => ?_)
  simp only [bernPt]
  have hq : ∀ i ∈ Finset.range (n + 2),
      (((n + 1).choose i : Nat) : ℚ) * t ^ i * (1 - t) ^ (n + 1 - i)
        * ((elevPoints ps).getD i (Pt.zero dm)).coords ax
      = (((n + 1).choose i : Nat) : ℚ) * t ^ i * (1 - t) ^ (n + 1 - i)
        * ((ps.getD i (Pt.zero dm)).coords ax
            + ((ps.getD (i - 1) (Pt.zero dm)).coords ax
                - (ps.getD i (Pt.zero dm)).coords ax)
              * ((i : ℚ) / ((n : ℚ) + 1))) := by
    intro i hi
    have hi2 : i < n + 2 := Finset.mem_range.1 hi
    congr 1
    by_cases h0 : i = 0
    · subst h0
      rw [elevPoints_getD_zero ps hne]
      simp
    · by_cases hla : i = n + 1
      · subst hla
        rw [elevPoints_getD_last n ps hlen]
        have hd1 : ((n + 1 : Nat) : ℚ) / ((n : ℚ) + 1) = 1 := by
          rw [div_eq_one_iff_eq (by positivity)]
          push_cast
          ring
        rw [Nat.add_sub_cancel, hd1]
        ring
      · rw [elevPoints_getD_mid n ps hlen i (by omega) (by omega), lerp_coords]
  rw [Finset.sum_congr rfl hq,
    bern_elevate n (fun k => (ps.getD k (Pt.zero dm)).coords ax) t]

theorem C4_witness :
    wps1.length = 1 + 1 ∧ (1 : Nat) ≤ 1 ∧ (1 : Nat) ≤ 19
      ∧ (0 : ℚ) ≤ 1 / 2 ∧ (1 / 2 : ℚ) ≤ 1
      ∧ (NBez.elevate ⟨wps1, initCache⟩ = some ⟨elevPoints wps1, initCache⟩
        ∧ (elevPoints wps1).length = 1 + 2
        ∧ (elevPoints wps1).getD 0 (Pt.zero 2) = wps1.getD 0 (Pt.zero 2)
        ∧ (elevPoints wps1).getD (1 + 1) (Pt.zero 2) = wps1.getD 1 (Pt.zero 2)
        ∧ (∀ i, 1 ≤ i → i ≤ 1 → (elevPoints wps1).getD i (Pt.zero 2)
            = lerp (wps1.getD i (Pt.zero 2)) (wps1.getD (i - 1) (Pt.zero 2))
                ((i : ℚ) / ((1 : ℚ) + 1)))
        ∧ (NBez.interp ⟨elevPoints wps1, initCache⟩ (1 / 2)).map Prod.fst
            = (NBez.interp ⟨wps1, initCache⟩ (1 / 2)).map Prod.fst) :=
  ⟨rfl, by omega, by omega, by norm_num, by norm_num,
    C4_elevate_preserves_curve 1 wps1 rfl (by omega) (by omega) initCache
      Reachable.init (1 / 2) (by norm_num) (by norm_num)⟩

/-- C10: for every curve of order 20 (21 control points), `elevate()`
panics: the elevated list has 22 control points and the constructor
called on it rejects length ≥ 22, even though construction at order 20
itself succeeds. -/
theorem C10_elevate_order20_panics {dm : Nat} (ps : List (Pt dm))
    (hlen : ps.length = 21) (c : FactorCache) :
    NBez.from_container ps = some ⟨ps, initCache⟩
    ∧ (elevPoints ps).length = 22
    ∧ NBez.elevate ⟨ps, c⟩ = none := by
  have hne : ps ≠ [] := by
    intro h
    rw [h] at hlen
    cases hlen
  refine ⟨?_, ?_, ?_⟩
  · unfold NBez.from_container
    rw [if_neg (by omega)]
  · rw [elevPoints_length ps hne, hlen]
  · obtain ⟨p0, rest, rfl⟩ : ∃ p0 rest, ps = p0 :: rest := by
      cases ps with
      | nil => simp at hlen
      | cons a l => exact ⟨a, l, rfl⟩
    show NBez.from_container (elevPoints (p0 :: rest)) = none
    unfold NBez.from_container
    rw [if_pos (by rw [elevPoints_length _ (by simp), hlen])]

theorem C10_witness :
    (List.replicate 21 (pt2 0 0)).length = 21
      ∧ (NBez.from_container (List.replicate 21 (pt2 0 0))
            = some ⟨List.replicate 21 (pt2 0 0), initCache⟩
          ∧ (elevPoints (List.replicate 21 (pt2 0 0))).length = 22
          ∧ NBez.elevate ⟨List.replicate 21 (pt2 0 0), initCache⟩ = none) :=
  ⟨by simp, C10_elevate_order20_panics (List.replicate 21 (pt2 0 0))
    (by simp) initCache⟩

/-- C5 (counterexample): the claim as stated is false on the code at two
concrete inputs: a sequence of 22 points (order 21) is rejected by
`NBez::from_container` (the panic "order >= 21"), not accepted, and a
sequence of length 0 is accepted at construction, not rejected. -/
theorem C5_counterexample :
    NBez.from_container (List.replicate 22 (pt2 0 0)) = none
    ∧ (NBez.from_container ([] : List (Pt 2))).isSome = true := by
  constructor
  · unfold NBez.from_container
    rw [if_pos (by simp)]
  · rfl

/-- C5 (amended): `NBez::from_container` succeeds exactly on sequences
of length < 22 (so the largest constructible order is 20, and 21 points
are accepted while 22 points — order 21 — panic); a length-0 sequence is
accepted at construction (its failure is deferred to evaluation).  The
boundary matches the u64 combinatorics: 20! still fits in u64 while 21!
overflows, so order 21 could never be evaluated. -/
theorem C5_amended_order_bound :
    (∀ ps : List (Pt 2),
      (ps.length ≤ 21 → NBez.from_container ps = some ⟨ps, initCache⟩)
      ∧ (22 ≤ ps.length → NBez.from_container ps = none))
    ∧ NBez.from_container (List.replicate 21 (pt2 0 0))
        = some ⟨List.replicate 21 (pt2 0 0), initCache⟩
    ∧ NBez.from_container ([] : List (Pt 2)) = some ⟨[], initCache⟩
    ∧ factorial 20 = some 2432902008176640000
    ∧ factorial 21 = none := by
  refine ⟨fun ps => ⟨fun h => ?_, fun h => ?_⟩, ?_, rfl, by decide, by decide⟩
  · unfold NBez.from_container
    rw [if_neg (by omega)]
  · unfold NBez.from_container
    rw [if_pos h]
  · unfold NBez.from_container
    rw [if_neg (by simp)]

/-- C6: `BezCubeChain::from_container` returns Ok wrapping the unmodified
sequence exactly when the length is 3k+1 and every overlapping group of
4 nodes is tagged anchor, control, control, anchor; a bad length yields
`InvalidLength`, a valid length with a bad tag pattern yields
`BadNodePattern`, and in every case the input sequence is returned or
dropped unchanged (no partial mutation); the three concrete sequences of
the claim behave as stated. -/
theorem C6_chain_validation :
    (∀ c : List BezNode,
      (BezCubeChain.from_container c = Except.ok ⟨c⟩
        ↔ (c.length % 3 = 1 ∧ ∀ i, i < c.length / 3 → segSpec c i))
      ∧ (c.length % 3 ≠ 1 →
          BezCubeChain.from_container c = Except.error BevError.InvalidLength)
      ∧ (c.length % 3 = 1 → ¬ (∀ i, i < c.length / 3 → segSpec c i) →
          BezCubeChain.from_container c = Except.error BevError.BadNodePattern)
      ∧ (∀ ch, BezCubeChain.from_container c = Except.ok ch → ch.container = c))
    ∧ BezCubeChain.from_container ex7good = Except.ok ⟨ex7good⟩
    ∧ BezCubeChain.from_container ex6 = Except.error BevError.InvalidLength
    ∧ BezCubeChain.from_container ex7bad = Except.error BevError.BadNodePattern := by
  have hseg : ∀ c : List BezNode,
      ((List.range (c.length / 3)).all (segOk c) = true
        ↔ (∀ i, i < c.length / 3 → segSpec c i)) := by
    intro c
    rw [List.all_eq_true]
    constructor
    · intro h i hi
      have h2 := h i (List.mem_range.2 hi)
      simp only [segOk, Bool.and_eq_true] at h2
      exact ⟨h2.1.1.1, h2.1.1.2, h2.1.2, h2.2⟩
    · intro h i hi
      have h2 := h i (List.mem_range.1 hi)
      simp only [segOk, Bool.and_eq_true]
      exact ⟨⟨⟨h2.1, h2.2.1⟩, h2.2.2.1⟩, h2.2.2.2⟩
  refine ⟨fun c => ⟨⟨?_, ?_⟩, ?_, ?_, ?_⟩, rfl, rfl, rfl⟩
  · intro h
    unfold BezCubeChain.from_container at h
    by_cases h1 : c.length % 3 = 1
    · rw [if_neg (by omega)] at h
      by_cases h2 : (List.range (c.length / 3)).all (segOk c) = true
      · exact ⟨h1, (hseg c).1 h2⟩
      · rw [if_neg h2] at h
        cases h
    · rw [if_pos h1] at h
      cases h
  · rintro ⟨h1, h2⟩
    unfold BezCubeChain.from_container
    rw [if_neg (by omega), if_pos ((hseg c).2 h2)]
  · intro h1
    unfold BezCubeChain.from_container
    rw [if_pos h1]
  · intro h1 h2
    unfold BezCubeChain.from_container
    rw [if_neg (by omega), if_neg (fun hall => h2 ((hseg c).1 hall))]
  · intro ch h
    unfold BezCubeChain.from_container at h
    by_cases h1 : c.length % 3 = 1
    · rw [if_neg (by omega)] at h
      by_cases h2 : (List.range (c.length / 3)).all (segOk c) = true
      · rw [if_pos h2] at h
        cases h
        rfl
      · rw [if_neg h2] at h
        cases h
    · rw [if_pos h1] at h
      cases h

end Bev
